import Mathlib

/-!
Verification of the sysrepo subscription-engine specification against the
repository sources.  The repository ships the logging header `src/log.h`
(embedded below under its own names) and the doxygen page documenting the
subscription engine; the engine implementation itself is not among the
sources, so the engine operations are modelled from the specification,
faithful to its words, as marked on each definition.
-/

namespace Sysrepo

/-- Error codes of the public API (`sr_error_t`). -/
inductive sr_error_t where
  | ok
  | inval_arg
  | internal
  | nomem
  | not_found
  | unsupported
  | validation_failed
  | operation_failed
  | time_out
  | callback_shelve
  | locked
  | sys
  deriving DecidableEq, Repr

/-- The POSIX `ETIMEDOUT` errno value (Linux). -/
def ETIMEDOUT : Nat := 110

/-- One element of a chained error-info list: code plus message
(`sr_error_info_t` entry). -/
structure ErrItem where
  code : sr_error_t
  msg : String
  deriving DecidableEq, Repr

/-- `sr_errinfo_new`: append one error (code, message) to an error-info
chain. -/
def sr_errinfo_new (err_info : List ErrItem) (code : sr_error_t) (msg : String) :
    List ErrItem :=
  err_info ++ [⟨code, msg⟩]

/-- `SR_ERRINFO_LOCK` from `src/log.h`: a mutex-lock failure is reported as
`SR_ERR_TIME_OUT` when the lock wait returned `ETIMEDOUT`, and as
`SR_ERR_INTERNAL` otherwise. -/
def SR_ERRINFO_LOCK (err_info : List ErrItem) (func : String) (ret : Nat) :
    List ErrItem :=
  sr_errinfo_new err_info
    (if ret = ETIMEDOUT then .time_out else .internal)
    ("Locking a mutex failed (" ++ func ++ ").")

/-- `SR_ERRINFO_MEM` from `src/log.h`: memory (shared-memory) exhaustion is
reported as `SR_ERR_NOMEM`. -/
def SR_ERRINFO_MEM (err_info : List ErrItem) : List ErrItem :=
  sr_errinfo_new err_info .nomem ""

/-- `SR_ERRINFO_INT` from `src/log.h`: a generic internal error. -/
def SR_ERRINFO_INT (err_info : List ErrItem) : List ErrItem :=
  sr_errinfo_new err_info .internal "Internal error."

/-- A session, as far as error reporting is concerned: the chained
error-info list attached to it. -/
structure Session where
  errInfo : List ErrItem
  deriving DecidableEq, Repr

/-- Modelled from the spec: the body of `sr_api_ret` is not among the
sources (only its declaration and doc comment in `src/log.h`): it sets the
error info to the session and returns the corresponding error code, if
any. -/
def sr_api_ret (session : Session) (err_info : List ErrItem) :
    Session × sr_error_t :=
  ({ session with errInfo := err_info },
   match err_info with
   | [] => .ok
   | e :: _ => e.code)

/-- `SR_CHECK_ARG_APIRET` from `src/log.h`, wrapped around an API
operation body over engine state `σ`: when the argument-check condition
holds, a fresh `SR_ERR_INVAL_ARG` error naming the function is attached to
the session via `sr_api_ret` and the function returns at once; otherwise
the body runs. -/
def SR_CHECK_ARG_APIRET {σ : Type} (cond : Bool) (funcName : String)
    (session : Session) (st : σ)
    (body : Session → σ → Session × σ × sr_error_t) :
    Session × σ × sr_error_t :=
  if cond then
    let err := sr_errinfo_new [] .inval_arg
      ("Invalid arguments for function \"" ++ funcName ++ "\".")
    let (s, code) := sr_api_ret session err
    (s, st, code)
  else
    body session st

/-! ## Subscriptions and priority order -/

/-- A subscription as the multiplexer and dispatcher see it: its id and
its signed priority. -/
structure Sub where
  id : Nat
  prio : Int
  deriving DecidableEq, Repr

/-- Modelled from the spec: the fan-out order of change events and of RPC
invocations — higher numeric priority first, tie-break by subscription id
ascending (deterministic).  For RPCs the lowest-priority subscription is
therefore last (the primary). -/
def subBefore (a b : Sub) : Prop :=
  b.prio < a.prio ∨ (a.prio = b.prio ∧ a.id ≤ b.id)

instance : DecidableRel subBefore := fun a b => by
  unfold subBefore; infer_instance

instance : IsTotal Sub subBefore where
  total a b := by
    unfold subBefore
    rcases lt_trichotomy a.prio b.prio with h | h | h
    · exact Or.inr (Or.inl h)
    · rcases Nat.le_total a.id b.id with h2 | h2
      · exact Or.inl (Or.inr ⟨h, h2⟩)
      · exact Or.inr (Or.inr ⟨h.symm, h2⟩)
    · exact Or.inl (Or.inl h)

instance : IsTrans Sub subBefore where
  trans a b c hab hbc := by
    unfold subBefore at *
    rcases hab with h1 | ⟨h1, h1'⟩ <;> rcases hbc with h2 | ⟨h2, h2'⟩
    · exact Or.inl (h2.trans h1)
    · exact Or.inl (h2 ▸ h1)
    · exact Or.inl (h1 ▸ h2)
    · exact Or.inr ⟨h1.trans h2, h1'.trans h2'⟩

/-- Modelled from the spec: sort subscriptions into fan-out order
(descending priority, id tie-break). -/
def sortByPrio (subs : List Sub) : List Sub :=
  List.insertionSort subBefore subs

/-- Event phases delivered to subscription callbacks. -/
inductive Phase where
  | update
  | change
  | done
  | abort
  | enabled
  | rpc
  deriving DecidableEq, Repr

/-- One delivered event: the target subscription id and the phase. -/
structure Event where
  target : Nat
  phase : Phase
  deriving DecidableEq, Repr

/-! ## Change Multiplexer

Modelled from the spec and the `change_subs` documentation page: on a
commit, *change* is fanned out in descending priority; if every callback
succeeds the datastore is swapped and *done* is fanned out; if one fails,
fan-out stops and *abort* is fanned out to exactly the subscribers that
already returned success for *change*, in ascending priority (reverse of
change order), the datastore is not swapped, and the commit fails with
`operation-failed`. -/

/-- Modelled from the spec: the subscribers actually invoked with the
*change* event, in order — fan-out proceeds in list order and stops right
after the first failed callback (`verdict` gives each callback's
outcome). -/
def invokedList (verdict : Nat → Bool) : List Sub → List Sub
  | [] => []
  | s :: rest => if verdict s.id then s :: invokedList verdict rest else [s]

/-- Modelled from the spec: an abstract datastore content used by the
transaction (the engine swaps it atomically on success). -/
structure Datastore where
  entries : List (List String × String)
  deriving DecidableEq, Repr

/-- Modelled from the spec: run a change transaction's *change* phase and
its follow-up (*done* on success, *abort* on failure) over the matching
subscriptions.  Returns the delivered event trace, the resulting datastore
content, and the commit's error code. -/
def runTransaction (verdict : Nat → Bool) (subs : List Sub)
    (cur new : Datastore) : List Event × Datastore × sr_error_t :=
  let ordered := sortByPrio subs
  let okSubs := ordered.takeWhile (fun s => verdict s.id)
  if ordered.all (fun s => verdict s.id) then
    (ordered.map (fun s => ⟨s.id, .change⟩) ++
       ordered.map (fun s => ⟨s.id, .done⟩),
     new, .ok)
  else
    ((invokedList verdict ordered).map (fun s => ⟨s.id, .change⟩) ++
       okSubs.reverse.map (fun s => ⟨s.id, .abort⟩),
     cur, .operation_failed)

/-- Outcome a callback can report for an event. -/
inductive CbResult where
  | ok
  | fail
  | shelve
  deriving DecidableEq, Repr

/-- States of an event record in the Event Record Store. -/
inductive RecState where
  | pending
  | inProgress
  | completedOk
  | completedFail
  | timedOut
  deriving DecidableEq, Repr

/-- A work item for one subscription: phase, state and absolute
deadline. -/
structure EventRecord where
  eid : Nat
  phase : Phase
  state : RecState
  deadline : Nat
  deriving DecidableEq, Repr

/-- Modelled from the spec: `process_events` handling of one claimed
record at absolute time `now`.  A pending record past its deadline becomes
`timed-out`; otherwise the callback runs and its verdict is recorded: the
reserved shelve code re-queues the record as `pending` with the phase and
the original deadline unchanged, ok and failure complete it.  Non-pending
records are untouched. -/
def processRecord (now : Nat) (r : EventRecord) (cb : Phase → CbResult) :
    EventRecord :=
  if r.state = .pending then
    if r.deadline ≤ now then
      { r with state := .timedOut }
    else
      match cb r.phase with
      | .shelve => { r with state := .pending }
      | .ok => { r with state := .completedOk }
      | .fail => { r with state := .completedFail }
  else
    r

/-- Modelled from the spec: a record's terminal state counts as a failure
for its phase when the callback failed or the record timed out. -/
def isPhaseFailure : RecState → Bool
  | .completedFail => true
  | .timedOut => true
  | _ => false

/-! ## RPC Dispatcher

Modelled from the spec and the `rpc_subs` documentation page: matching
subscriptions run with the lowest-priority one last (the primary); each
callback's output overwrites the previous content of the output buffer, so
on full success the sender receives the primary's output.  On a failure
the not-yet-invoked callbacks (the primary among them) are skipped, the
already-successful ones receive *abort* in reverse invocation order, and
the invocation fails; the primary is never sent *abort*. -/

/-- Result of an RPC invocation as seen by the sender. -/
inductive RpcResult where
  | success (output : String)
  | failure (code : sr_error_t)
  deriving DecidableEq, Repr

/-- Modelled from the spec: the sequential RPC execution loop.  `buf` is
the output buffer; every successful callback overwrites it with its own
output.  Returns the final buffer and whether every callback succeeded. -/
def rpcLoop (verdict : Nat → Bool) (outOf : Nat → String)
    (buf : Option String) : List Sub → Option String × Bool
  | [] => (buf, true)
  | s :: rest =>
    if verdict s.id then rpcLoop verdict outOf (some (outOf s.id)) rest
    else (buf, false)

/-- Modelled from the spec: dispatch one RPC invocation over the matching
subscriptions.  Returns the delivered event trace and the sender-visible
result.  With no matching subscription the invocation fails with
`not-found`. -/
def runRpc (verdict : Nat → Bool) (outOf : Nat → String)
    (subs : List Sub) : List Event × RpcResult :=
  let ordered := sortByPrio subs
  if ordered.isEmpty then
    ([], .failure .not_found)
  else
    let okSubs := ordered.takeWhile (fun s => verdict s.id)
    if ordered.all (fun s => verdict s.id) then
      (ordered.map (fun s => ⟨s.id, .rpc⟩),
       match rpcLoop verdict outOf none ordered with
       | (some out, _) => .success out
       | (none, _) => .failure .internal)
    else
      ((invokedList verdict ordered).map (fun s => ⟨s.id, .rpc⟩) ++
         okSubs.reverse.map (fun s => ⟨s.id, .abort⟩),
       .failure .operation_failed)

/-! ## Notification Broker

Modelled from the spec and the `notif_subs` documentation page: a
replay-enabled subscriber first receives the historical entries of the
module's NotificationLog in log (timestamp) order, then the
replay-complete event, then the real-time stream. -/

/-- A notification: its timestamp and payload. -/
structure Notif where
  ts : Nat
  payload : String
  deriving DecidableEq, Repr

/-- Events a notification subscriber receives. -/
inductive NEvent where
  | replay (n : Notif)
  | replayComplete
  | realtime (n : Notif)
  | stop
  deriving DecidableEq, Repr

/-- Whether a notification event is a replayed one. -/
def NEvent.isReplay : NEvent → Bool
  | .replay _ => true
  | _ => false

/-- Whether a notification event is a real-time one. -/
def NEvent.isRealtime : NEvent → Bool
  | .realtime _ => true
  | _ => false

/-- Modelled from the spec: the delivery sequence of a replay-enabled
subscriber with start-time in the past — log entries between start-time
and now, in log order, as `replay`; then `replayComplete`; then the
real-time notifications in publish order. -/
def deliverySeq (log : List Notif) (startTime now : Nat) (rt : List Notif) :
    List NEvent :=
  (log.filter (fun n => startTime ≤ n.ts && n.ts ≤ now)).map .replay ++
    (.replayComplete :: rt.map .realtime)

/-- The timestamps of the replayed notifications of a delivery sequence,
in delivery order. -/
def replayTimestamps (seq : List NEvent) : List Nat :=
  seq.filterMap (fun e => match e with | .replay n => some n.ts | _ => none)

/-! ## Operational Composer

Modelled from the spec and the `oper_subs` documentation page: the
applicable operational subscriptions of one read are ordered so that
providers of ancestor paths run strictly before providers of descendant
paths (nested subscriptions: deeper ones are called last). -/

/-- An operational subscription: its id and the schema path (as a list of
segments) whose data it provides. -/
structure OperSub where
  id : Nat
  path : List String
  deriving DecidableEq, Repr

/-- `a` is a strict ancestor path of `b`: `b` extends `a` by at least one
segment. -/
def strictAncestor (a b : List String) : Prop :=
  (∃ t, a ++ t = b) ∧ a ≠ b

/-- Ordering of two operational providers: shallower paths first. -/
def operBefore (a b : OperSub) : Prop :=
  a.path.length ≤ b.path.length

instance : DecidableRel operBefore := fun a b => by
  unfold operBefore; infer_instance

instance : IsTotal OperSub operBefore where
  total a b := Nat.le_total a.path.length b.path.length

instance : IsTrans OperSub operBefore where
  trans _ _ _ hab hbc := Nat.le_trans hab hbc

/-- `leadsTo a b`: path `a` is an initial segment of path `b`. -/
def leadsTo : List String → List String → Bool
  | [], _ => true
  | _ :: _, [] => false
  | a :: as, b :: bs => a = b && leadsTo as bs

/-- Modelled from the spec: whether a provider's path could intersect the
requested path (textual check: one is a path-segment extension of the
other). -/
def pathsIntersect (req prov : List String) : Bool :=
  leadsTo req prov || leadsTo prov req

/-- Modelled from the spec: the invocation plan of one operational read —
the applicable providers, ordered parents strictly before children
(shallower paths first). -/
def operPlan (req : List String) (subs : List OperSub) : List OperSub :=
  List.insertionSort operBefore
    (subs.filter (fun s => pathsIntersect req s.path))

/-! ## Enabled-event synthetic change set

Modelled from the spec and the `change_subs` documentation page: a change
subscription on the running datastore requesting the *enabled* event
receives the current configuration presented as creates (the event is
generated even when the configuration is empty), followed by *done*. -/

/-- A single change operation of a diff. -/
inductive ChangeOp where
  | create (path : List String) (val : String)
  | remove (path : List String)
  | modify (path : List String) (val : String)
  deriving DecidableEq, Repr

/-- The empty datastore. -/
def emptyDs : Datastore := ⟨[]⟩

/-- Modelled from the spec: the synthetic change set of the *enabled*
event — every node of the current configuration as a create, empty diff
allowed. -/
def enabledChangeSet (ds : Datastore) : List ChangeOp :=
  ds.entries.map (fun e => .create e.1 e.2)

/-- Modelled from the spec: apply one change operation to a datastore.  A
create adds the node when absent, a remove deletes it, a modify rewrites
its value. -/
def applyOp (ds : Datastore) : ChangeOp → Datastore
  | .create p v =>
    if ds.entries.any (fun e => e.1 = p) then ds else ⟨ds.entries ++ [(p, v)]⟩
  | .remove p => ⟨ds.entries.filter (fun e => ¬ e.1 = p)⟩
  | .modify p v => ⟨ds.entries.map (fun e => if e.1 = p then (p, v) else e)⟩

/-- Apply a whole change set in order. -/
def applyChanges (ds : Datastore) (ops : List ChangeOp) : Datastore :=
  ops.foldl applyOp ds

/-- Modelled from the spec: the events an `enabled`-requesting change
subscription receives right at subscribe time — *enabled* followed by
*done*, generated even for an empty configuration. -/
def enabledEvents (subId : Nat) : List Event :=
  [⟨subId, .enabled⟩, ⟨subId, .done⟩]

/-! ## Helper lemmas -/

/-- The fan-out order is sorted with respect to `subBefore`. -/
theorem sortByPrio_sorted (subs : List Sub) :
    (sortByPrio subs).Pairwise subBefore :=
  List.sorted_insertionSort subBefore subs

/-- Sorting into fan-out order keeps exactly the original
subscriptions. -/
theorem sortByPrio_perm (subs : List Sub) :
    List.Perm (sortByPrio subs) subs :=
  List.perm_insertionSort subBefore subs

/-- Membership is preserved by the fan-out order. -/
theorem mem_sortByPrio {s : Sub} {subs : List Sub} :
    s ∈ sortByPrio subs ↔ s ∈ subs :=
  (sortByPrio_perm subs).mem_iff

/-- The invoked fan-out list is the successful initial segment followed by
the first failing subscriber, if any. -/
theorem invokedList_eq_take_drop (p : Nat → Bool) :
    ∀ l : List Sub, invokedList p l =
      l.takeWhile (fun s => p s.id) ++ (l.dropWhile (fun s => p s.id)).take 1
  | [] => rfl
  | s :: rest => by
    by_cases h : p s.id
    · simp only [invokedList, if_pos h, List.takeWhile_cons, List.dropWhile_cons, h]
      simp [invokedList_eq_take_drop p rest]
    · simp only [invokedList, if_neg h, List.takeWhile_cons, List.dropWhile_cons, h]
      simp

/-- In a `Pairwise`-ordered list every element is the last one or is
related to it. -/
theorem pairwise_rel_getLast {α : Type} {r : α → α → Prop} :
    ∀ (l : List α) (h : l ≠ []), l.Pairwise r →
      ∀ x ∈ l, x = l.getLast h ∨ r x (l.getLast h)
  | [], h, _, _, hx => absurd rfl h
  | [a], _, _, x, hx => by
    simp only [List.mem_singleton] at hx
    exact Or.inl (by simp [hx])
  | a :: b :: t, _, hp, x, hx => by
    rcases List.mem_cons.mp hx with rfl | hx'
    · have hrel := List.rel_of_pairwise_cons hp
        (List.getLast_mem (l := b :: t) (by simp))
      right
      rw [List.getLast_cons (by simp)]
      exact hrel
    · have ih := pairwise_rel_getLast (b :: t) (by simp) hp.of_cons x hx'
      rw [List.getLast_cons (by simp)]
      exact ih

/-- A strictly minimal-priority element of a `subBefore`-sorted list is
its last element. -/
theorem sorted_getLast_eq_min {l : List Sub} (h : l ≠ [])
    (hsort : l.Pairwise subBefore) (p : Sub) (hmem : p ∈ l)
    (hmin : ∀ s ∈ l, s ≠ p → p.prio < s.prio) : l.getLast h = p := by
  rcases pairwise_rel_getLast l h hsort p hmem with he | hrel
  · exact he.symm
  · by_contra hne
    have hlt : p.prio < (l.getLast h).prio :=
      hmin (l.getLast h) (List.getLast_mem h) hne
    rcases hrel with h1 | ⟨h1, _⟩
    · exact absurd (h1.trans hlt) (lt_irrefl _)
    · rw [h1] at hlt
      exact absurd hlt (lt_irrefl _)

/-- With every callback succeeding, the RPC loop's final output buffer is
the last subscriber's output (or the incoming buffer with nobody to
call). -/
theorem rpcLoop_all_ok (verdict : Nat → Bool) (outOf : Nat → String) :
    ∀ (l : List Sub) (buf : Option String),
      (∀ s ∈ l, verdict s.id = true) →
      (rpcLoop verdict outOf buf l).1 =
        (match l.getLast? with
         | some s => some (outOf s.id)
         | none => buf)
  | [], _, _ => rfl
  | s :: rest, buf, h => by
    have hs : verdict s.id = true := h s (List.mem_cons_self s rest)
    rw [rpcLoop, if_pos hs,
      rpcLoop_all_ok verdict outOf rest _
        (fun x hx => h x (List.mem_cons_of_mem s hx))]
    cases rest with
    | nil => rfl
    | cons b t =>
      rw [List.getLast?_cons_cons]
      obtain ⟨x, hx⟩ : ∃ x, (b :: t).getLast? = some x :=
        ⟨_, List.getLast?_eq_getLast_of_ne_nil (by simp)⟩
      rw [hx]

/-- Index case split over an appended list: up to the split point the
element is from the left part, beyond it from the right part. -/
theorem get_append_cases {α : Type} (A B : List α) (i : Nat)
    (hi : i < (A ++ B).length) :
    (i < A.length ∧ (A ++ B).get ⟨i, hi⟩ ∈ A) ∨
      (A.length ≤ i ∧ (A ++ B).get ⟨i, hi⟩ ∈ B) := by
  by_cases h : i < A.length
  · left
    refine ⟨h, ?_⟩
    have : (A ++ B).get ⟨i, hi⟩ = A.get ⟨i, h⟩ := by
      simp [List.get_eq_getElem, List.getElem_append_left h]
    rw [this]
    exact List.get_mem A i h
  · right
    have hle : A.length ≤ i := Nat.le_of_not_lt h
    refine ⟨hle, ?_⟩
    have hlt : i - A.length < B.length := by
      have := hi
      simp only [List.length_append] at this
      omega
    have : (A ++ B).get ⟨i, hi⟩ = B.get ⟨i - A.length, hlt⟩ := by
      simp [List.get_eq_getElem, List.getElem_append_right hle]
    rw [this]
    exact List.get_mem B _ hlt

/-- The element right at the split point of `A ++ c :: T` is `c`. -/
theorem get_append_mid {α : Type} (A T : List α) (c : α)
    (h : A.length < (A ++ c :: T).length) :
    (A ++ c :: T).get ⟨A.length, h⟩ = c := by
  have : (A ++ c :: T).get ⟨A.length, h⟩ = (c :: T).get ⟨0, by simp⟩ := by
    simp [List.get_eq_getElem, List.getElem_append_right (Nat.le_refl A.length)]
  rw [this]
  rfl

/-! ## Claim theorems -/

/-- C9 counterexample: a mutex-lock failure whose wait returned
`ETIMEDOUT` surfaces with error code `timeout`, which is neither
`internal` nor `no-memory`, refuting the claim that lock failures surface
only as `internal` or `no-memory`. -/
theorem lock_timeout_counterexample :
    (SR_ERRINFO_LOCK [] "sr_shmmod_lock" ETIMEDOUT).map ErrItem.code =
        [sr_error_t.time_out] ∧
      sr_error_t.time_out ≠ sr_error_t.internal ∧
      sr_error_t.time_out ≠ sr_error_t.nomem :=
  ⟨rfl, by decide, by decide⟩

/-- C9 (amended): an engine-internal error from a lock failure surfaces
with error code `internal`, or `timeout` exactly when the lock wait
returned `ETIMEDOUT`; shared-memory exhaustion surfaces with `no-memory`;
in every case a non-ok error is appended to the chained error info, with
which the current operation aborts. -/
theorem lock_mem_error_codes (err_info : List ErrItem) (func : String)
    (ret : Nat) :
    ((SR_ERRINFO_LOCK err_info func ret).map ErrItem.code =
        err_info.map ErrItem.code ++
          [if ret = ETIMEDOUT then sr_error_t.time_out else .internal]) ∧
      ((SR_ERRINFO_MEM err_info).map ErrItem.code =
        err_info.map ErrItem.code ++ [sr_error_t.nomem]) ∧
      (∀ r : Nat,
        (if r = ETIMEDOUT then sr_error_t.time_out else .internal) ≠ .ok ∧
          sr_error_t.nomem ≠ .ok) := by
  refine ⟨?_, ?_, ?_⟩
  · simp [SR_ERRINFO_LOCK, sr_errinfo_new]
  · simp [SR_ERRINFO_MEM, sr_errinfo_new]
  · intro r
    constructor
    · by_cases h : r = ETIMEDOUT <;> simp [h]
    · decide

/-- C10: when the standard argument check of a public API operation
fires, a chained error with code `invalid-argument` and a message naming
the failing function is attached to the session, the operation returns
`invalid-argument` immediately without running any part of its body, and
the engine state is unchanged. -/
theorem api_arg_check_rejects (cond : Bool) (funcName : String)
    (session : Session) (σ : Type) (st : σ)
    (body body' : Session → σ → Session × σ × sr_error_t)
    (hcond : cond = true) :
    (SR_CHECK_ARG_APIRET cond funcName session st body).2.1 = st ∧
      (SR_CHECK_ARG_APIRET cond funcName session st body).2.2 = .inval_arg ∧
      (SR_CHECK_ARG_APIRET cond funcName session st body).1.errInfo =
        [⟨.inval_arg,
          "Invalid arguments for function \"" ++ funcName ++ "\"."⟩] ∧
      SR_CHECK_ARG_APIRET cond funcName session st body =
        SR_CHECK_ARG_APIRET cond funcName session st body' := by
  subst hcond
  refine ⟨rfl, rfl, ?_, rfl⟩
  simp [SR_CHECK_ARG_APIRET, sr_api_ret, sr_errinfo_new]

/-- C10 witness: a concrete failed argument check leaves the state
untouched, returns `invalid-argument` and records the function name. -/
theorem api_arg_check_rejects_witness :
    (true = true) ∧
      ((SR_CHECK_ARG_APIRET true "sr_get_item" ⟨[]⟩ (0 : Nat)
          (fun s st => (s, st + 1, .ok))).2.1 = 0 ∧
        (SR_CHECK_ARG_APIRET true "sr_get_item" ⟨[]⟩ (0 : Nat)
          (fun s st => (s, st + 1, .ok))).2.2 = .inval_arg ∧
        (SR_CHECK_ARG_APIRET true "sr_get_item" ⟨[]⟩ (0 : Nat)
          (fun s st => (s, st + 1, .ok))).1.errInfo =
          [⟨.inval_arg,
            "Invalid arguments for function \"" ++ "sr_get_item" ++ "\"."⟩] ∧
        SR_CHECK_ARG_APIRET true "sr_get_item" ⟨[]⟩ (0 : Nat)
          (fun s st => (s, st + 1, .ok)) =
          SR_CHECK_ARG_APIRET true "sr_get_item" ⟨[]⟩ (0 : Nat)
            (fun s st => (s, st + 2, .ok))) :=
  ⟨rfl,
   api_arg_check_rejects true "sr_get_item" ⟨[]⟩ Nat 0
     (fun s st => (s, st + 1, .ok)) (fun s st => (s, st + 2, .ok)) rfl⟩

/-- C3: a pending record whose callback returns the reserved shelve code
goes back to `pending` unchanged — same phase, same original deadline — so
the same event is redelivered on the next processing; shelving may repeat
any number of times before the deadline; once the deadline has elapsed the
record becomes `timed-out`, which counts as a failure for its phase. -/
theorem shelve_requeue_semantics (r : EventRecord) (cb : Phase → CbResult)
    (hp : r.state = .pending) (hsh : cb r.phase = .shelve) :
    (∀ now, now < r.deadline → processRecord now r cb = r) ∧
      (∀ ts : List Nat, (∀ t ∈ ts, t < r.deadline) →
        ts.foldl (fun x t => processRecord t x cb) r = r) ∧
      (∀ now, r.deadline ≤ now →
        (processRecord now r cb).state = .timedOut ∧
          (processRecord now r cb).deadline = r.deadline ∧
          isPhaseFailure (processRecord now r cb).state = true) := by
  obtain ⟨eid, phase, state, dl⟩ := r
  simp only at hp hsh
  subst hp
  have hstep : ∀ now, now < dl →
      processRecord now ⟨eid, phase, .pending, dl⟩ cb =
        ⟨eid, phase, .pending, dl⟩ := by
    intro now hnow
    simp [processRecord, hsh, Nat.not_le.mpr hnow]
  refine ⟨hstep, ?_, ?_⟩
  · intro ts
    induction ts with
    | nil => intro _; rfl
    | cons t ts ih =>
      intro hts
      rw [List.foldl_cons, hstep t (hts t (List.mem_cons_self t ts))]
      exact ih (fun x hx => hts x (List.mem_cons_of_mem t hx))
  · intro now hnow
    simp [processRecord, hnow, isPhaseFailure]

/-- C3 witness: a concrete pending change record with deadline 10 under a
shelving callback is unchanged when processed at times 0, 3 and 7, and
times out once processed at time 10. -/
theorem shelve_requeue_semantics_witness :
    ((⟨1, .change, .pending, 10⟩ : EventRecord).state = .pending ∧
        (fun _ => CbResult.shelve) Phase.change = .shelve) ∧
      ((∀ now, now < 10 →
          processRecord now ⟨1, .change, .pending, 10⟩ (fun _ => .shelve) =
            ⟨1, .change, .pending, 10⟩) ∧
        (∀ ts : List Nat, (∀ t ∈ ts, t < 10) →
          ts.foldl (fun x t => processRecord t x (fun _ => .shelve))
              ⟨1, .change, .pending, 10⟩ =
            ⟨1, .change, .pending, 10⟩) ∧
        (∀ now, 10 ≤ now →
          (processRecord now ⟨1, .change, .pending, 10⟩
              (fun _ => .shelve)).state = .timedOut ∧
            (processRecord now ⟨1, .change, .pending, 10⟩
              (fun _ => .shelve)).deadline = 10 ∧
            isPhaseFailure (processRecord now ⟨1, .change, .pending, 10⟩
              (fun _ => .shelve)).state = true)) :=
  ⟨⟨rfl, rfl⟩,
   shelve_requeue_semantics ⟨1, .change, .pending, 10⟩ (fun _ => .shelve)
     rfl rfl⟩

/-- Applying the creates built from `rest` on top of a datastore holding
`acc` appends them, as long as all keys are distinct. -/
theorem applyChanges_creates (rest : List (List String × String)) :
    ∀ acc : List (List String × String),
      ((acc ++ rest).map Prod.fst).Nodup →
      applyChanges ⟨acc⟩ (rest.map (fun e => ChangeOp.create e.1 e.2)) =
        ⟨acc ++ rest⟩ := by
  induction rest with
  | nil => intro acc _; simp [applyChanges]
  | cons e rest ih =>
    intro acc hnodup
    have hdisj : e.1 ∉ acc.map Prod.fst := by
      rw [List.map_append] at hnodup
      rcases (List.nodup_append.mp hnodup) with ⟨_, _, hd⟩
      intro hmem
      exact hd hmem (by simp)
    have hany : acc.any (fun x => x.1 = e.1) = false := by
      rw [Bool.eq_false_iff]
      intro hx
      rcases List.any_eq_true.mp hx with ⟨x, hxmem, hxeq⟩
      exact hdisj (List.mem_map.mpr ⟨x, hxmem, of_decide_eq_true hxeq⟩)
    have hop : applyOp ⟨acc⟩ (ChangeOp.create e.1 e.2) = ⟨acc ++ [e]⟩ := by
      simp [applyOp, hany]
    rw [List.map_cons]
    show applyChanges ⟨acc⟩
      (ChangeOp.create e.1 e.2 :: rest.map (fun x => ChangeOp.create x.1 x.2)) = _
    rw [applyChanges, List.foldl_cons, hop]
    have := ih (acc ++ [e]) (by
      rw [List.append_cons] at hnodup
      exact hnodup)
    rw [applyChanges] at this
    rw [this]
    simp

/-- C8: subscribing with the `enabled` flag on the running datastore
yields a synthetic change set presenting the current configuration as
creates; applying that change set to the empty tree reproduces the
datastore exactly, the change set of an empty configuration is the empty
diff, and the *enabled* event (followed by *done*) is generated regardless
of the configuration. -/
theorem enabled_synthetic_roundtrip (ds : Datastore)
    (hkeys : (ds.entries.map Prod.fst).Nodup) :
    applyChanges emptyDs (enabledChangeSet ds) = ds ∧
      enabledChangeSet emptyDs = [] ∧
      ∀ subId, enabledEvents subId = [⟨subId, .enabled⟩, ⟨subId, .done⟩] := by
  refine ⟨?_, rfl, fun _ => rfl⟩
  have h := applyChanges_creates ds.entries [] (by simpa using hkeys)
  simpa [emptyDs, enabledChangeSet] using h

/-- C8 witness: a concrete two-node running configuration is reproduced
exactly by applying its synthetic `enabled` change set to the empty
tree. -/
theorem enabled_synthetic_roundtrip_witness :
    ((Datastore.mk [(["m:a"], "1"), (["m:b"], "2")]).entries.map
        Prod.fst).Nodup ∧
      (applyChanges emptyDs
          (enabledChangeSet ⟨[(["m:a"], "1"), (["m:b"], "2")]⟩) =
          ⟨[(["m:a"], "1"), (["m:b"], "2")]⟩ ∧
        enabledChangeSet emptyDs = [] ∧
        ∀ subId, enabledEvents subId =
          [⟨subId, .enabled⟩, ⟨subId, .done⟩]) :=
  ⟨by decide,
   enabled_synthetic_roundtrip ⟨[(["m:a"], "1"), (["m:b"], "2")]⟩
     (by decide)⟩

/-- C7: in the invocation plan of an operational read, a provider of an
ancestor path is invoked strictly before any provider of a descendant
path. -/
theorem oper_ancestor_invoked_first (req : List String)
    (subs : List OperSub) (i j : Nat)
    (hi : i < (operPlan req subs).length)
    (hj : j < (operPlan req subs).length)
    (hanc : strictAncestor ((operPlan req subs).get ⟨i, hi⟩).path
      ((operPlan req subs).get ⟨j, hj⟩).path) :
    i < j := by
  have hsort : (operPlan req subs).Pairwise operBefore :=
    List.sorted_insertionSort operBefore _
  obtain ⟨⟨t, ht⟩, hne⟩ := hanc
  have htne : t ≠ [] := by
    rintro rfl
    rw [List.append_nil] at ht
    exact hne ht
  have hlen : ((operPlan req subs).get ⟨i, hi⟩).path.length <
      ((operPlan req subs).get ⟨j, hj⟩).path.length := by
    rw [← ht, List.length_append]
    have h0 : 0 < t.length := List.length_pos.mpr htne
    omega
  rcases Nat.lt_trichotomy i j with h | h | h
  · exact h
  · exfalso
    subst h
    exact lt_irrefl _ hlen
  · exfalso
    have hrel := (List.pairwise_iff_get.mp hsort) ⟨j, hj⟩ ⟨i, hi⟩ h
    exact absurd hlen (not_lt.mpr hrel)

/-- C7 witness: with providers of `/m:c/list` and `/m:c/list/state` in
one read plan, the ancestor provider's position is strictly before the
descendant provider's. -/
theorem oper_ancestor_invoked_first_witness :
    (0 < (operPlan ["m:c"]
        [⟨1, ["m:c", "list"]⟩, ⟨2, ["m:c", "list", "state"]⟩]).length ∧
      1 < (operPlan ["m:c"]
        [⟨1, ["m:c", "list"]⟩, ⟨2, ["m:c", "list", "state"]⟩]).length ∧
      strictAncestor
        ((operPlan ["m:c"]
            [⟨1, ["m:c", "list"]⟩, ⟨2, ["m:c", "list", "state"]⟩]).get
          ⟨0, by decide⟩).path
        ((operPlan ["m:c"]
            [⟨1, ["m:c", "list"]⟩, ⟨2, ["m:c", "list", "state"]⟩]).get
          ⟨1, by decide⟩).path) ∧
      0 < 1 :=
  ⟨⟨by decide, by decide, ⟨⟨["state"], by decide⟩, by decide⟩⟩,
   oper_ancestor_invoked_first ["m:c"]
     [⟨1, ["m:c", "list"]⟩, ⟨2, ["m:c", "list", "state"]⟩] 0 1
     (by decide) (by decide) ⟨⟨["state"], by decide⟩, by decide⟩⟩

/-- Index trichotomy over `A ++ c :: T`: the element is from `A`, is the
middle `c`, or is from `T`, according to the index's position. -/
theorem get_append_cons_cases {α : Type} (A T : List α) (c : α) (i : Nat)
    (hi : i < (A ++ c :: T).length) :
    (i < A.length ∧ (A ++ c :: T).get ⟨i, hi⟩ ∈ A) ∨
      (i = A.length ∧ (A ++ c :: T).get ⟨i, hi⟩ = c) ∨
      (A.length < i ∧ (A ++ c :: T).get ⟨i, hi⟩ ∈ T) := by
  rcases get_append_cases A (c :: T) i hi with ⟨h1, _⟩ | ⟨h1, _⟩
  · left
    refine ⟨h1, ?_⟩
    have : (A ++ c :: T).get ⟨i, hi⟩ = A.get ⟨i, h1⟩ := by
      simp [List.get_eq_getElem, List.getElem_append_left h1]
    rw [this]
    exact List.get_mem A i h1
  · by_cases h2 : i = A.length
    · right; left
      refine ⟨h2, ?_⟩
      subst h2
      exact get_append_mid A T c hi
    · right; right
      have h3 : A.length < i := lt_of_le_of_ne h1 (fun he => h2 he.symm)
      refine ⟨h3, ?_⟩
      have hk : i - A.length - 1 < T.length := by
        have := hi
        simp only [List.length_append, List.length_cons] at this
        omega
      have : (A ++ c :: T).get ⟨i, hi⟩ = (c :: T).get ⟨i - A.length, by
          simp only [List.length_cons]; omega⟩ := by
        simp [List.get_eq_getElem, List.getElem_append_right h1]
      rw [this]
      have hpos : i - A.length = (i - A.length - 1) + 1 := by omega
      have : (c :: T).get ⟨i - A.length, by
          simp only [List.length_cons]; omega⟩ =
          T.get ⟨i - A.length - 1, hk⟩ := by
        simp only [List.get_eq_getElem]
        rw [List.getElem_cons]
        split
        · omega
        · rfl
      rw [this]
      exact List.get_mem T _ hk

/-- C6: for a replay-enabled notification subscriber, replayed
notifications come in strictly increasing timestamp order, every replay
entry precedes the replay-complete event and every real-time
notification, and the replay-complete event precedes every real-time
notification. -/
theorem notif_replay_ordering (log rt : List Notif) (startTime now : Nat)
    (hlog : log.Pairwise (fun a b => a.ts < b.ts)) :
    (replayTimestamps (deliverySeq log startTime now rt)).Pairwise
        (· < ·) ∧
      (∀ i j (hi : i < (deliverySeq log startTime now rt).length)
          (hj : j < (deliverySeq log startTime now rt).length),
        ((deliverySeq log startTime now rt).get ⟨i, hi⟩).isReplay = true →
        ((deliverySeq log startTime now rt).get ⟨j, hj⟩).isRealtime =
          true → i < j) ∧
      (∀ i j (hi : i < (deliverySeq log startTime now rt).length)
          (hj : j < (deliverySeq log startTime now rt).length),
        ((deliverySeq log startTime now rt).get ⟨i, hi⟩).isReplay = true →
        (deliverySeq log startTime now rt).get ⟨j, hj⟩ =
          NEvent.replayComplete → i < j) ∧
      (∀ i j (hi : i < (deliverySeq log startTime now rt).length)
          (hj : j < (deliverySeq log startTime now rt).length),
        (deliverySeq log startTime now rt).get ⟨i, hi⟩ =
          NEvent.replayComplete →
        ((deliverySeq log startTime now rt).get ⟨j, hj⟩).isRealtime =
          true → i < j) := by
  have hrep : ∀ i (hi : i < (deliverySeq log startTime now rt).length),
      ((deliverySeq log startTime now rt).get ⟨i, hi⟩).isReplay = true →
      i < ((log.filter (fun n => startTime ≤ n.ts && n.ts ≤ now)).map
        NEvent.replay).length := by
    intro i hi h
    rcases get_append_cons_cases _ (rt.map NEvent.realtime)
        NEvent.replayComplete i hi with ⟨h1, _⟩ | ⟨_, h2⟩ | ⟨_, h2⟩
    · exact h1
    · have h2' : (deliverySeq log startTime now rt).get ⟨i, hi⟩ =
          NEvent.replayComplete := h2
      rw [h2'] at h
      simp [NEvent.isReplay] at h
    · have h2' : (deliverySeq log startTime now rt).get ⟨i, hi⟩ ∈
          rt.map NEvent.realtime := h2
      rcases List.mem_map.mp h2' with ⟨n, _, hn⟩
      rw [← hn] at h
      simp [NEvent.isReplay] at h
  have hmid : ∀ i (hi : i < (deliverySeq log startTime now rt).length),
      (deliverySeq log startTime now rt).get ⟨i, hi⟩ =
        NEvent.replayComplete →
      i = ((log.filter (fun n => startTime ≤ n.ts && n.ts ≤ now)).map
        NEvent.replay).length := by
    intro i hi h
    rcases get_append_cons_cases _ (rt.map NEvent.realtime)
        NEvent.replayComplete i hi with ⟨_, h2⟩ | ⟨h1, _⟩ | ⟨_, h2⟩
    · have h2' : (deliverySeq log startTime now rt).get ⟨i, hi⟩ ∈
          (log.filter (fun n => startTime ≤ n.ts && n.ts ≤ now)).map
            NEvent.replay := h2
      rw [h] at h2'
      rcases List.mem_map.mp h2' with ⟨n, _, hn⟩
      exact absurd hn (by simp)
    · exact h1
    · have h2' : (deliverySeq log startTime now rt).get ⟨i, hi⟩ ∈
          rt.map NEvent.realtime := h2
      rw [h] at h2'
      rcases List.mem_map.mp h2' with ⟨n, _, hn⟩
      exact absurd hn (by simp)
  have hrt : ∀ j (hj : j < (deliverySeq log startTime now rt).length),
      ((deliverySeq log startTime now rt).get ⟨j, hj⟩).isRealtime = true →
      ((log.filter (fun n => startTime ≤ n.ts && n.ts ≤ now)).map
        NEvent.replay).length < j := by
    intro j hj h
    rcases get_append_cons_cases _ (rt.map NEvent.realtime)
        NEvent.replayComplete j hj with ⟨_, h2⟩ | ⟨_, h2⟩ | ⟨h1, _⟩
    · have h2' : (deliverySeq log startTime now rt).get ⟨j, hj⟩ ∈
          (log.filter (fun n => startTime ≤ n.ts && n.ts ≤ now)).map
            NEvent.replay := h2
      rcases List.mem_map.mp h2' with ⟨n, _, hn⟩
      rw [← hn] at h
      simp [NEvent.isRealtime] at h
    · have h2' : (deliverySeq log startTime now rt).get ⟨j, hj⟩ =
          NEvent.replayComplete := h2
      rw [h2'] at h
      simp [NEvent.isRealtime] at h
    · exact h1
  refine ⟨?_, ?_, ?_, ?_⟩
  · have hmain : replayTimestamps (deliverySeq log startTime now rt) =
        (log.filter (fun n => startTime ≤ n.ts && n.ts ≤ now)).map
          Notif.ts := by
      simp only [replayTimestamps, deliverySeq, List.filterMap_append,
        List.filterMap_cons, List.filterMap_map, Function.comp]
      have hA : ∀ L : List Notif,
          L.filterMap ((fun e => match e with
            | NEvent.replay n => some n.ts
            | _ => none) ∘ NEvent.replay) = L.map Notif.ts := by
        intro L
        induction L with
        | nil => rfl
        | cons a t ih => simp [List.filterMap_cons, ih]
      have hB : ∀ L : List Notif,
          L.filterMap ((fun e => match e with
            | NEvent.replay n => some n.ts
            | _ => none) ∘ NEvent.realtime) = [] := by
        intro L
        induction L with
        | nil => rfl
        | cons a t ih => simp [List.filterMap_cons, ih]
      rw [hA, hB, List.append_nil]
    rw [hmain]
    exact (hlog.filter _).map Notif.ts (fun a b h => h)
  · intro i j hi hj h1 h2
    exact lt_of_lt_of_le (hrep i hi h1) (le_of_lt (hrt j hj h2))
  · intro i j hi hj h1 h2
    exact lt_of_lt_of_le (hrep i hi h1) (le_of_eq (hmid j hj h2).symm)
  · intro i j hi hj h1 h2
    rw [hmid i hi h1]
    exact hrt j hj h2

/-- C6 witness: with a log holding timestamps 1, 2, 3 and one real-time
notification at 4, the delivery sequence satisfies all the replay
ordering properties. -/
theorem notif_replay_ordering_witness :
    ([⟨1, "a"⟩, ⟨2, "b"⟩, ⟨3, "c"⟩] : List Notif).Pairwise
        (fun a b => a.ts < b.ts) ∧
      ((replayTimestamps (deliverySeq [⟨1, "a"⟩, ⟨2, "b"⟩, ⟨3, "c"⟩] 0 3
          [⟨4, "d"⟩])).Pairwise (· < ·) ∧
        (∀ i j (hi : i < (deliverySeq [⟨1, "a"⟩, ⟨2, "b"⟩, ⟨3, "c"⟩] 0 3
            [⟨4, "d"⟩]).length)
            (hj : j < (deliverySeq [⟨1, "a"⟩, ⟨2, "b"⟩, ⟨3, "c"⟩] 0 3
            [⟨4, "d"⟩]).length),
          ((deliverySeq [⟨1, "a"⟩, ⟨2, "b"⟩, ⟨3, "c"⟩] 0 3
            [⟨4, "d"⟩]).get ⟨i, hi⟩).isReplay = true →
          ((deliverySeq [⟨1, "a"⟩, ⟨2, "b"⟩, ⟨3, "c"⟩] 0 3
            [⟨4, "d"⟩]).get ⟨j, hj⟩).isRealtime = true → i < j) ∧
        (∀ i j (hi : i < (deliverySeq [⟨1, "a"⟩, ⟨2, "b"⟩, ⟨3, "c"⟩] 0 3
            [⟨4, "d"⟩]).length)
            (hj : j < (deliverySeq [⟨1, "a"⟩, ⟨2, "b"⟩, ⟨3, "c"⟩] 0 3
            [⟨4, "d"⟩]).length),
          ((deliverySeq [⟨1, "a"⟩, ⟨2, "b"⟩, ⟨3, "c"⟩] 0 3
            [⟨4, "d"⟩]).get ⟨i, hi⟩).isReplay = true →
          (deliverySeq [⟨1, "a"⟩, ⟨2, "b"⟩, ⟨3, "c"⟩] 0 3
            [⟨4, "d"⟩]).get ⟨j, hj⟩ = NEvent.replayComplete → i < j) ∧
        (∀ i j (hi : i < (deliverySeq [⟨1, "a"⟩, ⟨2, "b"⟩, ⟨3, "c"⟩] 0 3
            [⟨4, "d"⟩]).length)
            (hj : j < (deliverySeq [⟨1, "a"⟩, ⟨2, "b"⟩, ⟨3, "c"⟩] 0 3
            [⟨4, "d"⟩]).length),
          (deliverySeq [⟨1, "a"⟩, ⟨2, "b"⟩, ⟨3, "c"⟩] 0 3
            [⟨4, "d"⟩]).get ⟨i, hi⟩ = NEvent.replayComplete →
          ((deliverySeq [⟨1, "a"⟩, ⟨2, "b"⟩, ⟨3, "c"⟩] 0 3
            [⟨4, "d"⟩]).get ⟨j, hj⟩).isRealtime = true → i < j)) :=
  ⟨by decide,
   notif_replay_ordering [⟨1, "a"⟩, ⟨2, "b"⟩, ⟨3, "c"⟩] [⟨4, "d"⟩] 0 3
     (by decide)⟩

/-- The first record after the successful initial segment has a failing
verdict. -/
theorem dropWhile_cons_fails {α : Type} (p : α → Bool) :
    ∀ (l : List α) (y : α) (ys : List α),
      l.dropWhile p = y :: ys → p y = false
  | [], y, ys, h => by simp [List.dropWhile] at h
  | a :: t, y, ys, h => by
    by_cases ha : p a
    · rw [List.dropWhile_cons_of_pos ha] at h
      exact dropWhile_cons_fails p t y ys h
    · rw [List.dropWhile_cons_of_neg ha] at h
      injection h with h1 _
      subst h1
      exact Bool.eq_false_iff.mpr ha

/-- Membership of an event in a single-phase fan-out part. -/
theorem mem_event_map {i : Nat} {ph ph' : Phase} {l : List Sub} :
    (⟨i, ph⟩ : Event) ∈ l.map (fun s => ⟨s.id, ph'⟩) ↔
      ph = ph' ∧ i ∈ l.map Sub.id := by
  constructor
  · intro h
    rcases List.mem_map.mp h with ⟨s, hs, he⟩
    injection he with h1 h2
    exact ⟨h2.symm, h1 ▸ List.mem_map.mpr ⟨s, hs, rfl⟩⟩
  · rintro ⟨rfl, h⟩
    rcases List.mem_map.mp h with ⟨s, hs, he⟩
    exact List.mem_map.mpr ⟨s, hs, by rw [he]⟩

/-- A subscriber id that was invoked and has a succeeding verdict lies in
the successful initial segment of the fan-out. -/
theorem invoked_ok_mem_okPart (verdict : Nat → Bool) (ordered : List Sub)
    (i : Nat) (hv : verdict i = true)
    (hmem : i ∈ (invokedList verdict ordered).map Sub.id) :
    i ∈ (ordered.takeWhile (fun s => verdict s.id)).map Sub.id := by
  rcases List.mem_map.mp hmem with ⟨s, hsI, hsi⟩
  rw [invokedList_eq_take_drop] at hsI
  rcases List.mem_append.mp hsI with hsK | hsD
  · exact List.mem_map.mpr ⟨s, hsK, hsi⟩
  · exfalso
    cases hdw : ordered.dropWhile (fun s => verdict s.id) with
    | nil => rw [hdw] at hsD; simp at hsD
    | cons y ys =>
      rw [hdw] at hsD
      simp [List.take] at hsD
      subst hsD
      have hy := dropWhile_cons_fails _ _ _ _ hdw
      rw [hsi] at hy
      rw [hv] at hy
      exact absurd hy (by decide)

/-- C2: for any change transaction, every subscriber that returned ok on
*change* receives exactly one of *done* or *abort*, and no subscriber at
all receives both *done* and *abort*. -/
theorem change_done_abort_exactly_one (verdict : Nat → Bool)
    (subs : List Sub) (cur new : Datastore)
    (hids : (subs.map Sub.id).Nodup) :
    (∀ s ∈ subs, verdict s.id = true →
      (⟨s.id, .change⟩ : Event) ∈
        (runTransaction verdict subs cur new).1 →
      (runTransaction verdict subs cur new).1.count ⟨s.id, .done⟩ +
        (runTransaction verdict subs cur new).1.count ⟨s.id, .abort⟩ =
        1) ∧
      (∀ i, ¬((⟨i, .done⟩ : Event) ∈
          (runTransaction verdict subs cur new).1 ∧
        (⟨i, .abort⟩ : Event) ∈
          (runTransaction verdict subs cur new).1)) := by
  have hidnodup : ((sortByPrio subs).map Sub.id).Nodup :=
    (((sortByPrio_perm subs).map Sub.id).nodup_iff).mpr hids
  have hinj : Function.Injective
      (fun n => (⟨n, Phase.done⟩ : Event)) := by
    intro a b h
    injection h
  have hinj2 : Function.Injective
      (fun n => (⟨n, Phase.abort⟩ : Event)) := by
    intro a b h
    injection h
  by_cases hall : (sortByPrio subs).all (fun s => verdict s.id) = true
  · have hrun : runTransaction verdict subs cur new =
        ((sortByPrio subs).map (fun s => ⟨s.id, .change⟩) ++
          (sortByPrio subs).map (fun s => ⟨s.id, .done⟩),
         new, .ok) := by
      simp [runTransaction, hall]
    rw [hrun]
    constructor
    · intro s hs hv _
      have hdmap : (sortByPrio subs).map
          (fun s => (⟨s.id, Phase.done⟩ : Event)) =
          ((sortByPrio subs).map Sub.id).map
            (fun n => (⟨n, Phase.done⟩ : Event)) := by
        rw [List.map_map]
        rfl
      rw [List.count_append, List.count_append]
      have hc1 : ((sortByPrio subs).map
          (fun s => (⟨s.id, Phase.change⟩ : Event))).count
          (⟨s.id, Phase.done⟩ : Event) = 0 :=
        List.count_eq_zero_of_not_mem
          (fun hmem => Phase.noConfusion (mem_event_map.mp hmem).1)
      have hc2 : ((sortByPrio subs).map
          (fun s => (⟨s.id, Phase.done⟩ : Event))).count
          (⟨s.id, Phase.done⟩ : Event) = 1 := by
        rw [hdmap]
        have := List.count_map_of_injective
          ((sortByPrio subs).map Sub.id)
          (fun n => (⟨n, Phase.done⟩ : Event)) hinj s.id
        rw [this]
        exact List.count_eq_one_of_mem hidnodup
          (List.mem_map.mpr ⟨s, mem_sortByPrio.mpr hs, rfl⟩)
      have hc3 : ((sortByPrio subs).map
          (fun s => (⟨s.id, Phase.change⟩ : Event))).count
          (⟨s.id, Phase.abort⟩ : Event) = 0 :=
        List.count_eq_zero_of_not_mem
          (fun hmem => Phase.noConfusion (mem_event_map.mp hmem).1)
      have hc4 : ((sortByPrio subs).map
          (fun s => (⟨s.id, Phase.done⟩ : Event))).count
          (⟨s.id, Phase.abort⟩ : Event) = 0 :=
        List.count_eq_zero_of_not_mem
          (fun hmem => Phase.noConfusion (mem_event_map.mp hmem).1)
      rw [hc1, hc2, hc3, hc4]
    · rintro i ⟨_, ha⟩
      rcases List.mem_append.mp ha with ha | ha
      · exact Phase.noConfusion (mem_event_map.mp ha).1
      · exact Phase.noConfusion (mem_event_map.mp ha).1
  · rw [Bool.not_eq_true] at hall
    have hrun : runTransaction verdict subs cur new =
        ((invokedList verdict (sortByPrio subs)).map
            (fun s => ⟨s.id, .change⟩) ++
          ((sortByPrio subs).takeWhile
            (fun s => verdict s.id)).reverse.map
            (fun s => ⟨s.id, .abort⟩),
         cur, .operation_failed) := by
      simp [runTransaction, hall]
    rw [hrun]
    constructor
    · intro s hs hv hch
      have hchmem : s.id ∈ (invokedList verdict (sortByPrio subs)).map
          Sub.id := by
        rcases List.mem_append.mp hch with hch | hch
        · exact (mem_event_map.mp hch).2
        · exact absurd (mem_event_map.mp hch).1 (by decide)
      have hK : s.id ∈ ((sortByPrio subs).takeWhile
          (fun s => verdict s.id)).map Sub.id :=
        invoked_ok_mem_okPart verdict (sortByPrio subs) s.id hv hchmem
      have hKnodup : (((sortByPrio subs).takeWhile
          (fun s => verdict s.id)).map Sub.id).Nodup :=
        hidnodup.sublist ((List.takeWhile_sublist _).map Sub.id)
      rw [List.count_append, List.count_append]
      have hc1 : ((invokedList verdict (sortByPrio subs)).map
          (fun s => (⟨s.id, Phase.change⟩ : Event))).count
          (⟨s.id, Phase.done⟩ : Event) = 0 :=
        List.count_eq_zero_of_not_mem
          (fun hmem => Phase.noConfusion (mem_event_map.mp hmem).1)
      have hc2 : (((sortByPrio subs).takeWhile
          (fun s => verdict s.id)).reverse.map
          (fun s => (⟨s.id, Phase.abort⟩ : Event))).count
          (⟨s.id, Phase.done⟩ : Event) = 0 :=
        List.count_eq_zero_of_not_mem
          (fun hmem => Phase.noConfusion (mem_event_map.mp hmem).1)
      have hc3 : ((invokedList verdict (sortByPrio subs)).map
          (fun s => (⟨s.id, Phase.change⟩ : Event))).count
          (⟨s.id, Phase.abort⟩ : Event) = 0 :=
        List.count_eq_zero_of_not_mem
          (fun hmem => Phase.noConfusion (mem_event_map.mp hmem).1)
      have hc4 : (((sortByPrio subs).takeWhile
          (fun s => verdict s.id)).reverse.map
          (fun s => (⟨s.id, Phase.abort⟩ : Event))).count
          (⟨s.id, Phase.abort⟩ : Event) = 1 := by
        have hmm : ((sortByPrio subs).takeWhile
            (fun s => verdict s.id)).reverse.map
            (fun s => (⟨s.id, Phase.abort⟩ : Event)) =
            (((sortByPrio subs).takeWhile
              (fun s => verdict s.id)).reverse.map Sub.id).map
              (fun n => (⟨n, Phase.abort⟩ : Event)) := by
          rw [List.map_map]
          rfl
        rw [hmm]
        have := List.count_map_of_injective
          (((sortByPrio subs).takeWhile
            (fun s => verdict s.id)).reverse.map Sub.id)
          (fun n => (⟨n, Phase.abort⟩ : Event)) hinj2 s.id
        rw [this]
        have hrevnodup : ((((sortByPrio subs).takeWhile
            (fun s => verdict s.id)).reverse).map Sub.id).Nodup := by
          rw [List.map_reverse]
          exact List.nodup_reverse.mpr hKnodup
        refine List.count_eq_one_of_mem hrevnodup ?_
        rw [List.map_reverse, List.mem_reverse]
        exact hK
      rw [hc1, hc2, hc3, hc4]
    · rintro i ⟨hd, _⟩
      rcases List.mem_append.mp hd with hd | hd
      · exact Phase.noConfusion (mem_event_map.mp hd).1
      · exact Phase.noConfusion (mem_event_map.mp hd).1

/-- C2 witness: two subscribers both succeeding on *change* — each
receives exactly one completion event and nobody receives both. -/
theorem change_done_abort_exactly_one_witness :
    (([(⟨1, 10⟩ : Sub), ⟨2, 5⟩].map Sub.id).Nodup) ∧
      ((∀ s ∈ [(⟨1, 10⟩ : Sub), ⟨2, 5⟩], (fun _ => true) s.id = true →
        (⟨s.id, .change⟩ : Event) ∈
          (runTransaction (fun _ => true) [⟨1, 10⟩, ⟨2, 5⟩]
            ⟨[]⟩ ⟨[(["m:x"], "1")]⟩).1 →
        (runTransaction (fun _ => true) [⟨1, 10⟩, ⟨2, 5⟩]
            ⟨[]⟩ ⟨[(["m:x"], "1")]⟩).1.count ⟨s.id, .done⟩ +
          (runTransaction (fun _ => true) [⟨1, 10⟩, ⟨2, 5⟩]
            ⟨[]⟩ ⟨[(["m:x"], "1")]⟩).1.count ⟨s.id, .abort⟩ = 1) ∧
        (∀ i, ¬((⟨i, .done⟩ : Event) ∈
            (runTransaction (fun _ => true) [⟨1, 10⟩, ⟨2, 5⟩]
              ⟨[]⟩ ⟨[(["m:x"], "1")]⟩).1 ∧
          (⟨i, .abort⟩ : Event) ∈
            (runTransaction (fun _ => true) [⟨1, 10⟩, ⟨2, 5⟩]
              ⟨[]⟩ ⟨[(["m:x"], "1")]⟩).1))) :=
  ⟨by decide,
   change_done_abort_exactly_one (fun _ => true) [⟨1, 10⟩, ⟨2, 5⟩]
     ⟨[]⟩ ⟨[(["m:x"], "1")]⟩ (by decide)⟩

/-- C4: when several subscriptions match an RPC and every callback
returns ok, the lowest-priority subscription (the primary) is invoked
last and the sender receives exactly the primary's output, each
successive callback having overwritten the previous output. -/
theorem rpc_primary_output (verdict : Nat → Bool) (outOf : Nat → String)
    (subs : List Sub) (p : Sub) (hp : p ∈ subs)
    (hmin : ∀ s ∈ subs, s ≠ p → p.prio < s.prio)
    (hok : ∀ s ∈ subs, verdict s.id = true) :
    (runRpc verdict outOf subs).2 = .success (outOf p.id) ∧
      (runRpc verdict outOf subs).1.getLast? =
        some (⟨p.id, .rpc⟩ : Event) := by
  have hpord : p ∈ sortByPrio subs := mem_sortByPrio.mpr hp
  have hne : sortByPrio subs ≠ [] := List.ne_nil_of_mem hpord
  have hlast : (sortByPrio subs).getLast hne = p :=
    sorted_getLast_eq_min hne (sortByPrio_sorted subs) p hpord
      (fun s hs hsp => hmin s (mem_sortByPrio.mp hs) hsp)
  have hall : (sortByPrio subs).all (fun s => verdict s.id) = true :=
    List.all_eq_true.mpr (fun s hs => hok s (mem_sortByPrio.mp hs))
  have hisEmpty : (sortByPrio subs).isEmpty = false := by
    cases hord : sortByPrio subs with
    | nil => exact absurd hord hne
    | cons a t => rfl
  have hloop : (rpcLoop verdict outOf none (sortByPrio subs)).1 =
      some (outOf p.id) := by
    rw [rpcLoop_all_ok verdict outOf _ none
      (fun s hs => hok s (mem_sortByPrio.mp hs))]
    rw [List.getLast?_eq_getLast_of_ne_nil hne, hlast]
  constructor
  · rcases hres : rpcLoop verdict outOf none (sortByPrio subs) with
      ⟨buf, flag⟩
    rw [hres] at hloop
    simp only at hloop
    subst hloop
    simp [runRpc, hisEmpty, hall, hres]
  · have h1 : (runRpc verdict outOf subs).1 =
        (sortByPrio subs).map (fun s => ⟨s.id, .rpc⟩) := by
      simp [runRpc, hisEmpty, hall]
    rw [h1, List.getLast?_map, List.getLast?_eq_getLast_of_ne_nil hne,
      hlast]
    rfl

/-- C4 witness: subscribers at priorities 10, 5, 1, all succeeding — the
sender receives the priority-1 (primary) output and the primary is
invoked last. -/
theorem rpc_primary_output_witness :
    ((⟨1, 1⟩ : Sub) ∈ [(⟨10, 10⟩ : Sub), ⟨5, 5⟩, ⟨1, 1⟩] ∧
      (∀ s ∈ [(⟨10, 10⟩ : Sub), ⟨5, 5⟩, ⟨1, 1⟩],
        s ≠ (⟨1, 1⟩ : Sub) → (1 : Int) < s.prio) ∧
      (∀ s ∈ [(⟨10, 10⟩ : Sub), ⟨5, 5⟩, ⟨1, 1⟩],
        (fun _ => true) s.id = true)) ∧
      ((runRpc (fun _ => true) (fun i => toString i)
          [⟨10, 10⟩, ⟨5, 5⟩, ⟨1, 1⟩]).2 = .success (toString 1) ∧
        (runRpc (fun _ => true) (fun i => toString i)
          [⟨10, 10⟩, ⟨5, 5⟩, ⟨1, 1⟩]).1.getLast? =
          some (⟨1, .rpc⟩ : Event)) :=
  ⟨⟨by decide, by decide, by decide⟩,
   rpc_primary_output (fun _ => true) (fun i => toString i)
     [⟨10, 10⟩, ⟨5, 5⟩, ⟨1, 1⟩] ⟨1, 1⟩ (by decide) (by decide)
     (by decide)⟩

/-- Splitting `takeWhile` and `dropWhile` at an append whose left part
contains a failing element. -/
theorem take_drop_append_of_fail {α : Type} (pr : α → Bool) :
    ∀ (A B : List α), (∃ x ∈ A, pr x = false) →
      (A ++ B).takeWhile pr = A.takeWhile pr ∧
        (A ++ B).dropWhile pr = A.dropWhile pr ++ B := by
  intro A
  induction A with
  | nil =>
    rintro B ⟨x, hx, _⟩
    simp at hx
  | cons a t ih =>
    intro B hex
    by_cases ha : pr a
    · obtain ⟨x, hx, hxf⟩ := hex
      have hxt : x ∈ t := by
        rcases List.mem_cons.mp hx with rfl | h
        · rw [ha] at hxf
          exact absurd hxf (by decide)
        · exact h
      have hih := ih B ⟨x, hxt, hxf⟩
      constructor
      · simp [List.takeWhile_cons, ha, hih.1]
      · simp [List.dropWhile_cons, ha, hih.2]
    · constructor
      · simp [List.takeWhile_cons, ha]
      · simp [List.dropWhile_cons, ha]

/-- C5: when any RPC callback fails the invocation fails with
`operation-failed`; *abort* is delivered exactly to the already-invoked
callbacks that succeeded (all of higher priority than the failing one);
the primary is never sent *abort*; when the failing callback is a
non-primary one, the primary is not invoked at all; and fan-out stops at
the failing callback: every subscriber that is invoked is the failing one
itself or strictly precedes it in fan-out order and succeeded, so no
not-yet-invoked callback runs after the failure. -/
theorem rpc_failure_abort (verdict : Nat → Bool) (outOf : Nat → String)
    (subs : List Sub) (p : Sub)
    (hids : (subs.map Sub.id).Nodup) (hp : p ∈ subs)
    (hmin : ∀ s ∈ subs, s ≠ p → p.prio < s.prio)
    (hany : ∃ s ∈ subs, verdict s.id = false) :
    (runRpc verdict outOf subs).2 = .failure .operation_failed ∧
      (∀ i, (⟨i, .abort⟩ : Event) ∈ (runRpc verdict outOf subs).1 ↔
        ((⟨i, .rpc⟩ : Event) ∈ (runRpc verdict outOf subs).1 ∧
          verdict i = true)) ∧
      (⟨p.id, .abort⟩ : Event) ∉ (runRpc verdict outOf subs).1 ∧
      ((∃ s ∈ subs, s ≠ p ∧ verdict s.id = false) →
        (⟨p.id, .rpc⟩ : Event) ∉ (runRpc verdict outOf subs).1) ∧
      (∃ f ∈ subs, verdict f.id = false ∧
        (⟨f.id, .rpc⟩ : Event) ∈ (runRpc verdict outOf subs).1 ∧
        ∀ s ∈ subs, (⟨s.id, .rpc⟩ : Event) ∈
            (runRpc verdict outOf subs).1 →
          s = f ∨ (subBefore s f ∧ s ≠ f ∧ verdict s.id = true)) := by
  have hpord : p ∈ sortByPrio subs := mem_sortByPrio.mpr hp
  have hne : sortByPrio subs ≠ [] := List.ne_nil_of_mem hpord
  have hlast : (sortByPrio subs).getLast hne = p :=
    sorted_getLast_eq_min hne (sortByPrio_sorted subs) p hpord
      (fun s hs hsp => hmin s (mem_sortByPrio.mp hs) hsp)
  have hidnodup : ((sortByPrio subs).map Sub.id).Nodup :=
    (((sortByPrio_perm subs).map Sub.id).nodup_iff).mpr hids
  obtain ⟨s0, hs0mem, hs0⟩ := hany
  have hall : (sortByPrio subs).all (fun s => verdict s.id) = false := by
    rw [Bool.eq_false_iff]
    intro hx
    have h1 := List.all_eq_true.mp hx s0 (mem_sortByPrio.mpr hs0mem)
    rw [hs0] at h1
    exact Bool.false_ne_true h1
  have hisEmpty : (sortByPrio subs).isEmpty = false := by
    cases hord : sortByPrio subs with
    | nil => exact absurd hord hne
    | cons a t => rfl
  have hsplit : (sortByPrio subs).dropLast ++ [p] = sortByPrio subs := by
    have := List.dropLast_append_getLast hne
    rw [hlast] at this
    exact this
  have hpnotinA : p ∉ (sortByPrio subs).dropLast := by
    intro hmem
    have hnodup2 : (((sortByPrio subs).dropLast ++ [p]).map
        Sub.id).Nodup := by
      rw [hsplit]
      exact hidnodup
    rw [List.map_append] at hnodup2
    rcases List.nodup_append.mp hnodup2 with ⟨_, _, hdisj⟩
    exact hdisj (List.mem_map.mpr ⟨p, hmem, rfl⟩) (by simp)
  have hrun : runRpc verdict outOf subs =
      ((invokedList verdict (sortByPrio subs)).map
          (fun s => ⟨s.id, .rpc⟩) ++
        ((sortByPrio subs).takeWhile
          (fun s => verdict s.id)).reverse.map (fun s => ⟨s.id, .abort⟩),
       .failure .operation_failed) := by
    simp [runRpc, hisEmpty, hall]
  rw [hrun]
  have hKnotp : p ∉ (sortByPrio subs).takeWhile
      (fun s => verdict s.id) := by
    intro hmem
    by_cases hAfail : ∃ x ∈ (sortByPrio subs).dropLast,
        verdict x.id = false
    · have hKA := (take_drop_append_of_fail (fun s => verdict s.id)
        (sortByPrio subs).dropLast [p] hAfail).1
      rw [hsplit] at hKA
      rw [hKA] at hmem
      exact hpnotinA ((List.takeWhile_sublist _).subset hmem)
    · have hs0p : s0 = p := by
        by_contra hne2
        refine hAfail ⟨s0, ?_, hs0⟩
        have : s0 ∈ (sortByPrio subs).dropLast ++ [p] := by
          rw [hsplit]
          exact mem_sortByPrio.mpr hs0mem
        rcases List.mem_append.mp this with h | h
        · exact h
        · simp at h
          exact absurd h hne2
      have hvp : verdict p.id = true :=
        List.mem_takeWhile_imp (p := fun t : Sub => verdict t.id) hmem
      rw [← hs0p, hs0] at hvp
      exact Bool.false_ne_true hvp
  refine ⟨rfl, ?_, ?_, ?_, ?_⟩
  · intro i
    constructor
    · intro hmem
      rcases List.mem_append.mp hmem with hmem | hmem
      · exact absurd (mem_event_map.mp hmem).1 (by decide)
      · rcases List.mem_map.mp hmem with ⟨s, hs, hsi⟩
        have hi : i = s.id := congrArg Event.target hsi.symm
        subst hi
        rw [List.mem_reverse] at hs
        have hv : verdict s.id = true :=
          List.mem_takeWhile_imp (p := fun t : Sub => verdict t.id) hs
        have hsI : s ∈ invokedList verdict (sortByPrio subs) := by
          rw [invokedList_eq_take_drop]
          exact List.mem_append_left _ hs
        exact ⟨List.mem_append_left _
          (List.mem_map.mpr ⟨s, hsI, rfl⟩), hv⟩
    · rintro ⟨hrpc, hv⟩
      have hchmem : i ∈ (invokedList verdict (sortByPrio subs)).map
          Sub.id := by
        rcases List.mem_append.mp hrpc with h | h
        · exact (mem_event_map.mp h).2
        · exact absurd (mem_event_map.mp h).1 (by decide)
      have hK := invoked_ok_mem_okPart verdict (sortByPrio subs) i hv
        hchmem
      refine List.mem_append_right _ ?_
      rcases List.mem_map.mp hK with ⟨s, hs, hsi⟩
      exact mem_event_map.mpr ⟨rfl, List.mem_map.mpr
        ⟨s, List.mem_reverse.mpr hs, hsi⟩⟩
  · intro hmem
    rcases List.mem_append.mp hmem with hmem | hmem
    · exact absurd (mem_event_map.mp hmem).1 (by decide)
    · rcases List.mem_map.mp hmem with ⟨s, hs, hsi⟩
      rw [List.mem_reverse] at hs
      have hsid : s.id = p.id := congrArg Event.target hsi
      have hsp : s = p :=
        List.inj_on_of_nodup_map hidnodup
          ((List.takeWhile_sublist _).subset hs) hpord hsid
      rw [hsp] at hs
      exact hKnotp hs
  · rintro ⟨s1, hs1mem, hs1p, hs1⟩ hmem
    have hs1A : s1 ∈ (sortByPrio subs).dropLast := by
      have h2 : s1 ∈ (sortByPrio subs).dropLast ++ [p] := by
        rw [hsplit]
        exact mem_sortByPrio.mpr hs1mem
      rcases List.mem_append.mp h2 with h | h
      · exact h
      · simp at h
        exact absurd h hs1p
    have hIA : invokedList verdict (sortByPrio subs) ⊆
        (sortByPrio subs).dropLast := by
      have hKA := take_drop_append_of_fail (fun s => verdict s.id)
        (sortByPrio subs).dropLast [p] ⟨s1, hs1A, hs1⟩
      have heq1 : (sortByPrio subs).takeWhile (fun s => verdict s.id) =
          (sortByPrio subs).dropLast.takeWhile
            (fun s => verdict s.id) := by
        conv_lhs => rw [← hsplit]
        exact hKA.1
      have heq2 : (sortByPrio subs).dropWhile (fun s => verdict s.id) =
          (sortByPrio subs).dropLast.dropWhile
            (fun s => verdict s.id) ++ [p] := by
        conv_lhs => rw [← hsplit]
        exact hKA.2
      have hdne : (sortByPrio subs).dropLast.dropWhile
          (fun s => verdict s.id) ≠ [] := by
        intro hnil
        have h3 := List.dropWhile_eq_nil_iff.mp hnil s1 hs1A
        rw [hs1] at h3
        exact absurd h3 (by decide)
      obtain ⟨y, ys, hyys⟩ := List.exists_cons_of_ne_nil hdne
      intro x hx
      rw [invokedList_eq_take_drop, heq1, heq2, hyys] at hx
      rcases List.mem_append.mp hx with hx | hx
      · exact (List.takeWhile_sublist _).subset hx
      · simp [List.take] at hx
        subst hx
        have hsub : (sortByPrio subs).dropLast.dropWhile
            (fun s => verdict s.id) ⊆ (sortByPrio subs).dropLast :=
          (List.dropWhile_sublist _).subset
        refine hsub ?_
        rw [hyys]
        exact List.mem_cons_self _ _
    rcases List.mem_append.mp hmem with hmem | hmem
    · rcases List.mem_map.mp hmem with ⟨s, hs, hsi⟩
      have hsid : s.id = p.id := congrArg Event.target hsi
      have hsord : s ∈ sortByPrio subs := by
        have h4 : s ∈ (sortByPrio subs).dropLast ++ [p] :=
          List.mem_append_left _ (hIA hs)
        rw [hsplit] at h4
        exact h4
      have hsp : s = p :=
        List.inj_on_of_nodup_map hidnodup hsord hpord hsid
      rw [hsp] at hs
      exact hpnotinA (hIA hs)
    · exact absurd (mem_event_map.mp hmem).1 (by decide)
  · have hdne : (sortByPrio subs).dropWhile
        (fun s => verdict s.id) ≠ [] := by
      intro hnil
      have h3 := List.dropWhile_eq_nil_iff.mp hnil s0
        (mem_sortByPrio.mpr hs0mem)
      rw [hs0] at h3
      exact absurd h3 (by decide)
    obtain ⟨f, fs, hf⟩ := List.exists_cons_of_ne_nil hdne
    have hff : verdict f.id = false :=
      dropWhile_cons_fails (fun s => verdict s.id) (sortByPrio subs) f
        fs hf
    have hford : f ∈ sortByPrio subs := by
      have hsub : (sortByPrio subs).dropWhile (fun s => verdict s.id) ⊆
          sortByPrio subs := (List.dropWhile_sublist _).subset
      refine hsub ?_
      rw [hf]
      exact List.mem_cons_self _ _
    have hfinv : f ∈ invokedList verdict (sortByPrio subs) := by
      rw [invokedList_eq_take_drop]
      refine List.mem_append_right _ ?_
      rw [hf]
      simp [List.take]
    refine ⟨f, mem_sortByPrio.mp hford, hff, ?_, ?_⟩
    · exact List.mem_append_left _ (List.mem_map.mpr ⟨f, hfinv, rfl⟩)
    · intro s hs hsr
      have hsmem : s.id ∈ (invokedList verdict (sortByPrio subs)).map
          Sub.id := by
        rcases List.mem_append.mp hsr with h | h
        · exact (mem_event_map.mp h).2
        · exact absurd (mem_event_map.mp h).1 (by decide)
      rcases List.mem_map.mp hsmem with ⟨t, htI, hti⟩
      have htord : t ∈ sortByPrio subs := by
        rw [invokedList_eq_take_drop] at htI
        rcases List.mem_append.mp htI with h | h
        · exact (List.takeWhile_sublist _).subset h
        · exact (List.dropWhile_sublist _).subset
            ((List.take_sublist _ _).subset h)
      have hts : t = s :=
        List.inj_on_of_nodup_map hidnodup htord
          (mem_sortByPrio.mpr hs) hti
      rw [hts] at htI
      rw [invokedList_eq_take_drop, hf] at htI
      rcases List.mem_append.mp htI with h | h
      · right
        have hv : verdict s.id = true :=
          List.mem_takeWhile_imp (p := fun t : Sub => verdict t.id) h
        have hpa : ((sortByPrio subs).takeWhile
            (fun s => verdict s.id) ++
            (sortByPrio subs).dropWhile
              (fun s => verdict s.id)).Pairwise subBefore := by
          rw [List.takeWhile_append_dropWhile]
          exact sortByPrio_sorted subs
        refine ⟨(List.pairwise_append.mp hpa).2.2 s h f ?_, ?_, hv⟩
        · rw [hf]
          exact List.mem_cons_self _ _
        · intro he
          rw [he, hff] at hv
          exact absurd hv (by decide)
      · left
        simp [List.take] at h
        exact h

/-- C5 witness: subscribers at priorities 10, 5, 1 with the priority-5
callback failing — the invocation fails, priority 10 is aborted, the
primary is neither aborted nor invoked. -/
theorem rpc_failure_abort_witness :
    (([(⟨10, 10⟩ : Sub), ⟨5, 5⟩, ⟨1, 1⟩].map Sub.id).Nodup ∧
      (⟨1, 1⟩ : Sub) ∈ [(⟨10, 10⟩ : Sub), ⟨5, 5⟩, ⟨1, 1⟩] ∧
      (∀ s ∈ [(⟨10, 10⟩ : Sub), ⟨5, 5⟩, ⟨1, 1⟩],
        s ≠ (⟨1, 1⟩ : Sub) → (1 : Int) < s.prio) ∧
      (∃ s ∈ [(⟨10, 10⟩ : Sub), ⟨5, 5⟩, ⟨1, 1⟩],
        (fun i => decide ¬(i = 5)) s.id = false)) ∧
      ((runRpc (fun i => decide ¬(i = 5)) (fun i => toString i)
          [⟨10, 10⟩, ⟨5, 5⟩, ⟨1, 1⟩]).2 = .failure .operation_failed ∧
        (∀ i, (⟨i, .abort⟩ : Event) ∈
            (runRpc (fun i => decide ¬(i = 5)) (fun i => toString i)
              [⟨10, 10⟩, ⟨5, 5⟩, ⟨1, 1⟩]).1 ↔
          ((⟨i, .rpc⟩ : Event) ∈
              (runRpc (fun i => decide ¬(i = 5)) (fun i => toString i)
                [⟨10, 10⟩, ⟨5, 5⟩, ⟨1, 1⟩]).1 ∧
            (fun i => decide ¬(i = 5)) i = true)) ∧
        (⟨(1 : Nat), .abort⟩ : Event) ∉
          (runRpc (fun i => decide ¬(i = 5)) (fun i => toString i)
            [⟨10, 10⟩, ⟨5, 5⟩, ⟨1, 1⟩]).1 ∧
        ((∃ s ∈ [(⟨10, 10⟩ : Sub), ⟨5, 5⟩, ⟨1, 1⟩],
            s ≠ (⟨1, 1⟩ : Sub) ∧ (fun i => decide ¬(i = 5)) s.id =
              false) →
          (⟨(1 : Nat), .rpc⟩ : Event) ∉
            (runRpc (fun i => decide ¬(i = 5)) (fun i => toString i)
              [⟨10, 10⟩, ⟨5, 5⟩, ⟨1, 1⟩]).1) ∧
        (∃ f ∈ [(⟨10, 10⟩ : Sub), ⟨5, 5⟩, ⟨1, 1⟩],
          (fun i => decide ¬(i = 5)) f.id = false ∧
          (⟨f.id, .rpc⟩ : Event) ∈
            (runRpc (fun i => decide ¬(i = 5)) (fun i => toString i)
              [⟨10, 10⟩, ⟨5, 5⟩, ⟨1, 1⟩]).1 ∧
          ∀ s ∈ [(⟨10, 10⟩ : Sub), ⟨5, 5⟩, ⟨1, 1⟩],
            (⟨s.id, .rpc⟩ : Event) ∈
              (runRpc (fun i => decide ¬(i = 5)) (fun i => toString i)
                [⟨10, 10⟩, ⟨5, 5⟩, ⟨1, 1⟩]).1 →
            s = f ∨ (subBefore s f ∧ s ≠ f ∧
              (fun i => decide ¬(i = 5)) s.id = true))) :=
  ⟨⟨by decide, by decide, by decide, ⟨⟨5, 5⟩, by decide, by decide⟩⟩,
   rpc_failure_abort (fun i => decide ¬(i = 5)) (fun i => toString i)
     [⟨10, 10⟩, ⟨5, 5⟩, ⟨1, 1⟩] ⟨1, 1⟩ (by decide) (by decide)
     (by decide) ⟨⟨5, 5⟩, by decide, by decide⟩⟩

end Sysrepo
